import Mathlib

/-!
Shallow embedding of `src/discord_compressor.cpp` (chunked file compressor).

Modelling conventions:
* Bytes are `Nat` values (with `< 256` hypotheses where the C++ `uint8_t` type
  matters, e.g. for CRC-32 bounds); byte sequences are `List Nat`.
* Machine integers are `Nat` with explicit `% 2^32` / `% 2^64` at the points
  where the source casts (`static_cast<uint32_t>`, the packed header fields).
* The zlib codec (`compress2` / `uncompress`) is external to this repository and
  is treated as the spec treats it: an opaque pair of functions
  `comp : List Nat → List Nat` and `dec : List Nat → Nat → Option (List Nat)`
  over which the pipelines are parametrised.  `dec` returns `none` when zlib
  reports an error.  `idComp` / `idDec` below give a concrete executable
  instance used for witnesses.
* File system effects are made explicit: `compress_file`'s output is the list
  of `(file name, file content)` pairs it writes (names relative to the output
  directory, which is a shared prefix of every path and so does not affect the
  lexical sort), and `decompress_file`'s input is the directory listing as a
  list of `(file name, file content)` pairs.
* The worker pools run every submitted task; tasks are independent, and the
  model executes them in submission (index) order.  A C++ exception thrown by
  a task is modelled as the `Res.err` outcome.  An out-of-bounds
  `std::vector::operator[]` read (undefined behaviour in C++) is modelled as
  the distinguished failure `Err.indexOutOfBounds`.
-/

namespace DiscordCompressor

/-- Failure kinds of the two pipelines (the `std::runtime_error` throws in the
source, classified as in the spec's error-kind list). -/
inductive Err where
  | notFound
  | noChunksFound
  | formatError
  | codecError
  | integrityError (i : Nat)
  | chunkProcessingError
  | ioError
  | indexOutOfBounds (i : Nat)
deriving DecidableEq

/-- Outcome of a pipeline: a returned value or a thrown error. -/
inductive Res (α : Type) where
  | ok : α → Res α
  | err : Err → Res α
deriving DecidableEq

/-- `CHUNK_SIZE` constant from the source: 20 MiB. -/
def CHUNK_SIZE : Nat := 20 * 1024 * 1024

/-- zlib's CRC-32 polynomial (reflected form), as used by `crc32`. -/
def CRC_POLY : Nat := 0xEDB88320

/-- One bit step of the CRC-32 feedback shift. -/
def crcOneBit (c : Nat) : Nat :=
  if c % 2 = 1 then (c / 2) ^^^ CRC_POLY else c / 2

/-- Iterate the bit step. -/
def crcBits : Nat → Nat → Nat
  | 0, c => c
  | k + 1, c => crcBits k (crcOneBit c)

/-- Fold one input byte into the CRC state. -/
def crcByteStep (c b : Nat) : Nat := crcBits 8 (c ^^^ b)

/-- `calculate_crc32` from the source: zlib `crc32(0L, data, len)`, i.e. the
standard CRC-32 with initial value 0 (zlib conditions the state with
`0xFFFFFFFF` before and after). -/
def crc32 (data : List Nat) : Nat :=
  (data.foldl crcByteStep 0xFFFFFFFF) ^^^ 0xFFFFFFFF

/-- The 8 magic bytes `"DCHUNKV1"` of `ChunkMetadata.magic`. -/
def magicBytes : List Nat := [68, 67, 72, 85, 78, 75, 86, 49]

/-- `ChunkMetadata` from the source (packed, 48 bytes on disk). -/
structure ChunkMetadata where
  magic : List Nat
  chunk_index : Nat
  total_chunks : Nat
  original_file_size : Nat
  uncompressed_chunk_size : Nat
  compressed_size : Nat
  filename_length : Nat
  crc32_checksum : Nat
deriving DecidableEq

/-- Build the metadata exactly as `compress_file` does, applying the source's
integer-width truncations (`uint32_t` casts, `uint64_t` fields). -/
def mkMeta (i N S unc clen fnlen crc : Nat) : ChunkMetadata :=
  { magic := magicBytes
    chunk_index := i % 2 ^ 32
    total_chunks := N % 2 ^ 32
    original_file_size := S % 2 ^ 64
    uncompressed_chunk_size := unc % 2 ^ 64
    compressed_size := clen % 2 ^ 64
    filename_length := fnlen % 2 ^ 32
    crc32_checksum := crc % 2 ^ 32 }

/-- Little-endian serialisation of a `uint32_t` field. -/
def serU32 (n : Nat) : List Nat :=
  [n % 256, n / 256 % 256, n / 65536 % 256, n / 16777216 % 256]

/-- Little-endian serialisation of a `uint64_t` field. -/
def serU64 (n : Nat) : List Nat :=
  [n % 256, n / 256 % 256, n / 65536 % 256, n / 16777216 % 256,
   n / 4294967296 % 256, n / 1099511627776 % 256,
   n / 281474976710656 % 256, n / 72057594037927936 % 256]

/-- On-disk bytes of the packed header, field order as in the struct
declaration (x86 little-endian `output.write(&metadata, sizeof(metadata))`). -/
def serHeader (m : ChunkMetadata) : List Nat :=
  m.magic ++ serU32 m.chunk_index ++ serU32 m.total_chunks ++
  serU64 m.original_file_size ++ serU64 m.uncompressed_chunk_size ++
  serU64 m.compressed_size ++ serU32 m.filename_length ++ serU32 m.crc32_checksum

/-- Read back a little-endian `uint32_t` from the first 4 bytes. -/
def parseU32 (b : List Nat) : Nat :=
  b.getD 0 0 + 256 * b.getD 1 0 + 65536 * b.getD 2 0 + 16777216 * b.getD 3 0

/-- Read back a little-endian `uint64_t` from the first 8 bytes. -/
def parseU64 (b : List Nat) : Nat :=
  b.getD 0 0 + 256 * b.getD 1 0 + 65536 * b.getD 2 0 + 16777216 * b.getD 3 0 +
  4294967296 * b.getD 4 0 + 1099511627776 * b.getD 5 0 +
  281474976710656 * b.getD 6 0 + 72057594037927936 * b.getD 7 0

/-- `chunk_file.read(&metadata, sizeof(metadata))`: recover the header from the
first 48 bytes of a chunk file.  A file shorter than the header leaves the
struct partially unwritten in C++ (the stream fails); modelled as `none`. -/
def parseHeader (b : List Nat) : Option ChunkMetadata :=
  if b.length < 48 then none
  else some
    { magic := b.take 8
      chunk_index := parseU32 (b.drop 8)
      total_chunks := parseU32 (b.drop 12)
      original_file_size := parseU64 (b.drop 16)
      uncompressed_chunk_size := parseU64 (b.drop 24)
      compressed_size := parseU64 (b.drop 32)
      filename_length := parseU32 (b.drop 40)
      crc32_checksum := parseU32 (b.drop 44) }

/-- Decimal digit bytes of `n` (fuel-indexed so that it reduces in the
kernel; `n + 1` units of fuel always suffice). -/
def natDigitsGo : Nat → Nat → List Nat
  | 0, _ => []
  | fuel + 1, n => if n < 10 then [48 + n] else natDigitsGo fuel (n / 10) ++ [48 + n % 10]

/-- `std::to_string` on a `Nat`. -/
def natDigits (n : Nat) : List Nat := natDigitsGo (n + 1) n

/-- Chunk file name `chunk_{i+1}_of_{N}.dchunk` (bytes of the string built at
line 206 of the source, relative to the output directory). -/
def chunkFileName (i N : Nat) : List Nat :=
  [99, 104, 117, 110, 107, 95] ++ natDigits (i + 1) ++
  [95, 111, 102, 95] ++ natDigits N ++ [46, 100, 99, 104, 117, 110, 107]

/-- The 7 bytes of the extension `".dchunk"`. -/
def dchunkSuffix : List Nat := [46, 100, 99, 104, 117, 110, 107]

/-- Discovery filter: `entry.path().extension() == ".dchunk"`. -/
def isDchunk (name : List Nat) : Bool :=
  name.drop (name.length - 7) == dchunkSuffix

/-- `total_chunks = (file_size + CHUNK_SIZE - 1) / CHUNK_SIZE` (line 144). -/
def numChunks (S C : Nat) : Nat := (S + C - 1) / C

/-- Bytes of chunk `i`: the loop at lines 154-167 reads
`min(CHUNK_SIZE, file_size - i*CHUNK_SIZE)` bytes starting at offset
`i*CHUNK_SIZE`. -/
def chunkBytes (bytes : List Nat) (C i : Nat) : List Nat :=
  (bytes.drop (i * C)).take C

/-- `ChunkData` from the source: one in-memory work item of either pool. -/
structure ChunkData where
  index : Nat
  data : List Nat
  compressed_data : List Nat
  processed : Bool
deriving DecidableEq, Inhabited

/-- The chunk record written for work item `c` at loop position `i`
(lines 197-218): packed header, then the raw filename bytes, then the
compressed payload, with no delimiters. -/
def recordBytesFor (fn : List Nat) (S N i : Nat) (c : ChunkData) : List Nat × List Nat :=
  (chunkFileName i N,
   serHeader (mkMeta i N S c.data.length c.compressed_data.length fn.length
     (crc32 c.data)) ++ fn ++ c.compressed_data)

/-- The write loop of `compress_file` (lines 192-222): walk the work items in
index order (`i0` is the loop counter), throw `Err.chunkProcessingError` at the
first item whose completion flag is unset, and otherwise emit its record.
Returns the records written before any failure, and the failure if one
occurred. -/
def writeRecords (fn : List Nat) (S N : Nat) : Nat → List ChunkData →
    List (List Nat × List Nat) × Option Err
  | _, [] => ([], none)
  | i0, c :: cs =>
    if c.processed then
      let rest := writeRecords fn S N (i0 + 1) cs
      (recordBytesFor fn S N i0 c :: rest.1, rest.2)
    else ([], some .chunkProcessingError)

/-- The work item for chunk `i` after the compression pool has drained: every
task ran `compress_data` on its slice and set its flag (lines 175-190). -/
def mkChunkData (comp : List Nat → List Nat) (bytes : List Nat) (C i : Nat) : ChunkData :=
  { index := i
    data := chunkBytes bytes C i
    compressed_data := comp (chunkBytes bytes C i)
    processed := true }

/-- `compress_file`: split the input into `numChunks` slices, compress each,
and write one record per chunk.  The input file's bytes and name are passed
directly (the `fs::exists` / stream-open failures are environmental). -/
def compressFile (comp : List Nat → List Nat) (fn bytes : List Nat) (C : Nat) :
    Res (List (List Nat × List Nat)) :=
  let S := bytes.length
  let N := numChunks S C
  let cds := (List.range N).map (mkChunkData comp bytes C)
  match writeRecords fn S N 0 cds with
  | (recs, none) => .ok recs
  | (_, some e) => .err e

/-- The record `compress_file` produces for chunk `i`, with the CRC header
field generalised to an arbitrary assignment `crcf` (used to express tampered
chunk sets; `compress_file` itself uses `crcf i = crc32 (chunkBytes bytes C i)`). -/
def recordOf (comp : List Nat → List Nat) (fn bytes : List Nat) (C N : Nat)
    (crcf : Nat → Nat) (i : Nat) : List Nat × List Nat :=
  (chunkFileName i N,
   serHeader (mkMeta i N bytes.length (chunkBytes bytes C i).length
     (comp (chunkBytes bytes C i)).length fn.length (crcf i)) ++ fn ++
   comp (chunkBytes bytes C i))

/-- A full chunk set with CRC fields given by `crcf`. -/
def recordsWithCrc (comp : List Nat → List Nat) (fn bytes : List Nat) (C N : Nat)
    (crcf : Nat → Nat) : List (List Nat × List Nat) :=
  (List.range N).map (recordOf comp fn bytes C N crcf)

/-- The chunk set `compress_file` writes. -/
def compressRecords (comp : List Nat → List Nat) (fn bytes : List Nat) (C : Nat) :
    List (List Nat × List Nat) :=
  recordsWithCrc comp fn bytes C (numChunks bytes.length C)
    (fun i => crc32 (chunkBytes bytes C i))

/-- Lexicographic byte order on names: C++ `std::string operator<=`. -/
def lexLe : List Nat → List Nat → Bool
  | [], _ => true
  | _ :: _, [] => false
  | a :: as, b :: bs => if a < b then true else if b < a then false else lexLe as bs

/-- Strict lexicographic byte order on names: C++ `std::string operator<`. -/
def lexLt : List Nat → List Nat → Bool
  | [], [] => false
  | [], _ :: _ => true
  | _ :: _, [] => false
  | a :: as, b :: bs => if a < b then true else if b < a then false else lexLt as bs

/-- Insert a directory entry into a name-sorted list of entries. -/
def insertFile (e : List Nat × List Nat) :
    List (List Nat × List Nat) → List (List Nat × List Nat)
  | [] => [e]
  | f :: fs => if lexLe e.1 f.1 then e :: f :: fs else f :: insertFile e fs

/-- `std::sort(chunk_files.begin(), chunk_files.end())` (line 250): sort the
discovered entries by name.  Modelled by insertion sort, which agrees with any
comparison sort on listings with pairwise distinct names (file names in one
directory are distinct). -/
def sortFiles : List (List Nat × List Nat) → List (List Nat × List Nat)
  | [] => []
  | f :: fs => insertFile f (sortFiles fs)

/-- The vector read `chunk_files[i]` performed by the decompression task for
index `i` (line 295); `none` models the out-of-bounds case. -/
def taskFileAccess (files : List (List Nat × List Nat)) (i : Nat) :
    Option (List Nat × List Nat) := files[i]?

/-- The sequential read loop of `decompress_file` (lines 273-289): for each of
the first `min(#files, total_chunks)` sorted files, read its header and
filename, then store its payload in the slot selected by the header's own
`chunk_index` field.  (`List.set` is a no-op out of bounds, where the C++
`chunks[metadata.chunk_index]` write would be undefined behaviour; no claim
exercises that case.) -/
def readSlotsGo : List (List Nat × List Nat) → List (List Nat) → Res (List (List Nat))
  | [], slots => .ok slots
  | f :: fs, slots =>
    match parseHeader f.2 with
    | none => .err .ioError
    | some m =>
      readSlotsGo fs
        (slots.set m.chunk_index ((f.2.drop (48 + m.filename_length)).take m.compressed_size))

/-- The decompression pool (lines 293-311), tasks run in index order: task `i`
re-reads the header of `chunk_files[i]`, decompresses slot `i`'s payload to
that header's `uncompressed_chunk_size`, and accepts the chunk only if the
CRC-32 of the decompressed bytes equals that header's stored checksum,
otherwise throwing the integrity error that names index `i`. -/
def workerGo (dec : List Nat → Nat → Option (List Nat))
    (files : List (List Nat × List Nat)) (slots : List (List Nat)) :
    List Nat → Res (List (List Nat))
  | [] => .ok []
  | i :: is =>
    match taskFileAccess files i with
    | none => .err (.indexOutOfBounds i)
    | some f =>
      match parseHeader f.2 with
      | none => .err .ioError
      | some m =>
        match dec (slots.getD i []) m.uncompressed_chunk_size with
        | none => .err .codecError
        | some d =>
          if crc32 d = m.crc32_checksum then
            match workerGo dec files slots is with
            | .ok ds => .ok (d :: ds)
            | .err e => .err e
          else .err (.integrityError i)

/-- `decompress_file`: discover `.dchunk` entries, sort by name, bootstrap
`total_chunks` from the lexically first header (the only magic check), fill
the slots, run the verification pool, and concatenate the decompressed chunks
in slot order.  Returns the reassembled bytes. -/
def decompressFile (dec : List Nat → Nat → Option (List Nat))
    (dir : List (List Nat × List Nat)) : Res (List Nat) :=
  match sortFiles (dir.filter (fun e => isDchunk e.1)) with
  | [] => .err .noChunksFound
  | f0 :: rest =>
    match parseHeader f0.2 with
    | none => .err .formatError
    | some m0 =>
      if m0.magic = magicBytes then
        match readSlotsGo ((f0 :: rest).take m0.total_chunks)
            (List.replicate m0.total_chunks []) with
        | .err e => .err e
        | .ok slots =>
          match workerGo dec (f0 :: rest) slots (List.range m0.total_chunks) with
          | .err e => .err e
          | .ok datas => .ok datas.flatten
      else .err .formatError

/-- Identity codec: a concrete instance of the external codec contract, used
to evaluate the pipelines on concrete inputs. -/
def idComp (x : List Nat) : List Nat := x

/-- Identity decompression: fails (as `uncompress` does) when the destination
capacity is smaller than the data. -/
def idDec (x : List Nat) (expected : Nat) : Option (List Nat) :=
  if x.length ≤ expected then some x else none

/-- The command-line round trip: compress to a chunk directory, then
decompress that directory. -/
def roundTrip (comp : List Nat → List Nat) (dec : List Nat → Nat → Option (List Nat))
    (fn bytes : List Nat) (C : Nat) : Res (List Nat) :=
  match compressFile comp fn bytes C with
  | .ok recs => decompressFile dec recs
  | .err e => .err e

/-- Success condition for the task of index `i`: the file it re-reads exists,
its header parses, decompression of slot `i` yields `g i`, and the CRC
matches. -/
def TaskOk (dec : List Nat → Nat → Option (List Nat))
    (files : List (List Nat × List Nat)) (slots : List (List Nat))
    (g : Nat → List Nat) (i : Nat) : Prop :=
  ∃ f m, taskFileAccess files i = some f ∧ parseHeader f.2 = some m ∧
    dec (slots.getD i []) m.uncompressed_chunk_size = some (g i) ∧
    crc32 (g i) = m.crc32_checksum

/-! ### The record encoding round-trips -/

lemma serHeader_mkMeta_length (i N S unc clen fnlen crc : Nat) :
    (serHeader (mkMeta i N S unc clen fnlen crc)).length = 48 := by
  simp [serHeader, mkMeta, magicBytes, serU32, serU64]

lemma parseHeader_mkMeta (i N S unc clen fnlen crc : Nat) (rest : List Nat) :
    parseHeader (serHeader (mkMeta i N S unc clen fnlen crc) ++ rest) =
      some (mkMeta i N S unc clen fnlen crc) := by
  simp only [serHeader, mkMeta, magicBytes, serU32, serU64, List.cons_append,
    List.nil_append, parseHeader, List.length_cons, List.length_append]
  rw [if_neg (by omega)]
  simp only [parseU32, parseU64, List.take_succ_cons, List.take_zero,
    List.drop_succ_cons, List.drop_zero, List.getD_cons_zero, List.getD_cons_succ]
  refine congrArg some ?_
  simp only [ChunkMetadata.mk.injEq]
  refine ⟨trivial, ?_, ?_, ?_, ?_, ?_, ?_, ?_⟩ <;> omega

lemma isDchunk_append (a : List Nat) : isDchunk (a ++ dchunkSuffix) = true := by
  have h : (a ++ dchunkSuffix).length - 7 = a.length := by
    simp [dchunkSuffix]
  rw [isDchunk, h, List.drop_left]
  simp

lemma isDchunk_chunkFileName (i N : Nat) : isDchunk (chunkFileName i N) = true := by
  have h : chunkFileName i N =
      ([99, 104, 117, 110, 107, 95] ++ natDigits (i + 1) ++ [95, 111, 102, 95] ++
        natDigits N) ++ dchunkSuffix := by
    simp [chunkFileName, dchunkSuffix, List.append_assoc]
  rw [h, isDchunk_append]

/-! ### CRC-32 values fit in 32 bits -/

lemma crcOneBit_lt {c : Nat} (h : c < 2 ^ 32) : crcOneBit c < 2 ^ 32 := by
  unfold crcOneBit CRC_POLY
  split
  · exact Nat.xor_lt_two_pow (by omega) (by norm_num)
  · omega

lemma crcBits_lt (k : Nat) {c : Nat} (h : c < 2 ^ 32) : crcBits k c < 2 ^ 32 := by
  induction k generalizing c with
  | zero => exact h
  | succ k ih => exact ih (crcOneBit_lt h)

lemma crcByteStep_lt {c b : Nat} (hc : c < 2 ^ 32) (hb : b < 256) :
    crcByteStep c b < 2 ^ 32 :=
  crcBits_lt 8 (Nat.xor_lt_two_pow hc (by omega))

lemma crc32_lt {l : List Nat} (hb : ∀ b ∈ l, b < 256) : crc32 l < 2 ^ 32 := by
  unfold crc32
  have h : ∀ (l : List Nat) (c : Nat), (∀ b ∈ l, b < 256) → c < 2 ^ 32 →
      l.foldl crcByteStep c < 2 ^ 32 := by
    intro l
    induction l with
    | nil => exact fun c _ hc => hc
    | cons x xs ih =>
      intro c hm hc
      simp only [List.foldl_cons]
      exact ih _ (fun b hb2 => hm b (List.mem_cons_of_mem _ hb2))
        (crcByteStep_lt hc (hm x (List.mem_cons_self _ _)))
  exact Nat.xor_lt_two_pow (h l _ hb (by norm_num)) (by norm_num)

/-! ### Lexicographic order on names, and the discovery sort -/

lemma lexLe_total : ∀ a b, lexLe a b = true ∨ lexLe b a = true := by
  intro a
  induction a with
  | nil => intro b; left; rfl
  | cons x xs ih =>
    intro b
    cases b with
    | nil => right; rfl
    | cons y ys =>
      rcases Nat.lt_trichotomy x y with h | h | h
      · left; simp [lexLe, h]
      · subst h
        rcases ih ys with h2 | h2
        · left; simpa [lexLe] using h2
        · right; simpa [lexLe] using h2
      · right; simp [lexLe, h]

lemma lexLe_trans : ∀ a b c, lexLe a b = true → lexLe b c = true → lexLe a c = true := by
  intro a
  induction a with
  | nil => intro b c _ _; rfl
  | cons x xs ih =>
    intro b c h1 h2
    cases b with
    | nil => simp [lexLe] at h1
    | cons y ys =>
      cases c with
      | nil => simp [lexLe] at h2
      | cons z zs =>
        rcases Nat.lt_trichotomy x y with hxy | hxy | hxy
        · rcases Nat.lt_trichotomy y z with hyz | hyz | hyz
          · simp [lexLe, Nat.lt_trans hxy hyz]
          · subst hyz; simp [lexLe, hxy]
          · simp [lexLe, hyz, Nat.lt_asymm hyz] at h2
        · subst hxy
          rcases Nat.lt_trichotomy x z with hyz | hyz | hyz
          · simp [lexLe, hyz]
          · subst hyz
            simp only [lexLe, Nat.lt_irrefl, if_false] at h1 h2 ⊢
            exact ih ys zs h1 h2
          · simp [lexLe, hyz, Nat.lt_asymm hyz] at h2
        · simp [lexLe, hxy, Nat.lt_asymm hxy] at h1

lemma lexLe_lexLt_asymm : ∀ a b, lexLe a b = true → lexLt b a = true → False := by
  intro a
  induction a with
  | nil =>
    intro b _ h2
    cases b <;> simp [lexLt] at h2
  | cons x xs ih =>
    intro b h1 h2
    cases b with
    | nil => simp [lexLe] at h1
    | cons y ys =>
      rcases Nat.lt_trichotomy x y with hxy | hxy | hxy
      · simp [lexLt, hxy, Nat.lt_asymm hxy] at h2
      · subst hxy
        simp only [lexLe, lexLt, Nat.lt_irrefl, if_false] at h1 h2
        exact ih ys h1 h2
      · simp [lexLe, hxy, Nat.lt_asymm hxy] at h1

lemma insertFile_perm (e : List Nat × List Nat) (l : List (List Nat × List Nat)) :
    (insertFile e l).Perm (e :: l) := by
  induction l with
  | nil => exact List.Perm.refl _
  | cons f fs ih =>
    rw [insertFile]
    split
    · exact List.Perm.refl _
    · exact (List.Perm.cons f ih).trans (List.Perm.swap e f fs)

lemma sortFiles_perm (l : List (List Nat × List Nat)) : (sortFiles l).Perm l := by
  induction l with
  | nil => exact List.Perm.refl _
  | cons f fs ih => exact (insertFile_perm f (sortFiles fs)).trans (List.Perm.cons f ih)

lemma insertFile_pairwise (e : List Nat × List Nat) (l : List (List Nat × List Nat))
    (h : l.Pairwise (fun a b => lexLe a.1 b.1 = true)) :
    (insertFile e l).Pairwise (fun a b => lexLe a.1 b.1 = true) := by
  induction l with
  | nil => simp [insertFile]
  | cons f fs ih =>
    obtain ⟨hf, hfs⟩ := List.pairwise_cons.mp h
    rw [insertFile]
    split
    · rename_i hef
      refine List.pairwise_cons.mpr ⟨?_, h⟩
      intro b hb
      rcases List.mem_cons.mp hb with hb | hb
      · subst hb; exact hef
      · exact lexLe_trans _ _ _ hef (hf b hb)
    · rename_i hef
      have hfe : lexLe f.1 e.1 = true := by
        rcases lexLe_total e.1 f.1 with h2 | h2
        · exact absurd h2 hef
        · exact h2
      refine List.pairwise_cons.mpr ⟨?_, ih hfs⟩
      intro b hb
      rcases (insertFile_perm e fs).mem_iff.mp hb with hb2
      rcases List.mem_cons.mp hb2 with hb3 | hb3
      · subst hb3; exact hfe
      · exact hf b hb3

lemma sortFiles_pairwise (l : List (List Nat × List Nat)) :
    (sortFiles l).Pairwise (fun a b => lexLe a.1 b.1 = true) := by
  induction l with
  | nil => simp [sortFiles]
  | cons f fs ih => exact insertFile_pairwise f (sortFiles fs) ih

/-- A `lexLe`-sorted permutation of a strictly `lexLt`-sorted list is that
list itself. -/
lemma perm_sorted_eq : ∀ (r l : List (List Nat × List Nat)), l.Perm r →
    l.Pairwise (fun a b => lexLe a.1 b.1 = true) →
    r.Pairwise (fun a b => lexLt a.1 b.1 = true) → l = r := by
  intro r
  induction r with
  | nil => exact fun l hp _ _ => List.perm_nil.mp hp
  | cons x rt ih =>
    intro l hp hl hr
    cases l with
    | nil =>
      exact absurd (List.perm_nil.mp hp.symm) (by simp)
    | cons a lt =>
      by_cases hax : a = x
      · subst hax
        rw [ih lt hp.cons_inv (List.pairwise_cons.mp hl).2 (List.pairwise_cons.mp hr).2]
      · exfalso
        have hal : a ∈ x :: rt := hp.mem_iff.mp (List.mem_cons_self a lt)
        have ha_rt : a ∈ rt := by
          rcases List.mem_cons.mp hal with h | h
          · exact absurd h hax
          · exact h
        have hxl : x ∈ a :: lt := hp.mem_iff.mpr (List.mem_cons_self x rt)
        have hx_lt : x ∈ lt := by
          rcases List.mem_cons.mp hxl with h | h
          · exact absurd h.symm hax
          · exact h
        exact lexLe_lexLt_asymm _ _ ((List.pairwise_cons.mp hl).1 x hx_lt)
          ((List.pairwise_cons.mp hr).1 a ha_rt)

/-- For up to nine chunks the generated file names are strictly increasing in
chunk index (single decimal digits sort lexically like numbers). -/
lemma chunkFileName_pairwise_lt (N : Nat) (h9 : N ≤ 9) :
    (List.range N).Pairwise
      (fun i j => lexLt (chunkFileName i N) (chunkFileName j N) = true) := by
  interval_cases N <;> decide

lemma recordsWithCrc_pairwise (comp : List Nat → List Nat) (fn bytes : List Nat)
    (C N : Nat) (crcf : Nat → Nat) (h9 : N ≤ 9) :
    (recordsWithCrc comp fn bytes C N crcf).Pairwise (fun a b => lexLt a.1 b.1 = true) := by
  unfold recordsWithCrc
  rw [List.pairwise_map]
  exact chunkFileName_pairwise_lt N h9

lemma sortFiles_eq_of_perm (recs d : List (List Nat × List Nat)) (hperm : d.Perm recs)
    (hr : recs.Pairwise (fun a b => lexLt a.1 b.1 = true)) : sortFiles d = recs :=
  perm_sorted_eq recs (sortFiles d) ((sortFiles_perm d).trans hperm)
    (sortFiles_pairwise d) hr

/-! ### The chunk partition reassembles to the input -/

lemma numChunks_zero (C : Nat) : numChunks 0 C = 0 := by
  unfold numChunks
  rcases Nat.eq_zero_or_pos C with h | h
  · simp [h]
  · exact Nat.div_eq_of_lt (by omega)

lemma numChunks_pos {S C : Nat} (hS : 0 < S) (hC : 0 < C) : 0 < numChunks S C :=
  (Nat.le_div_iff_mul_le hC).mpr (by omega)

lemma numChunks_succ {S C : Nat} (hS : 0 < S) (hC : 0 < C) :
    numChunks S C = numChunks (S - C) C + 1 := by
  rcases Nat.lt_or_ge C S with h | h
  · unfold numChunks
    have h1 : S + C - 1 = (S - C + C - 1) + C := by omega
    rw [h1, Nat.add_div_right _ hC]
  · have h0 : S - C = 0 := by omega
    rw [h0, numChunks_zero]
    unfold numChunks
    have h1 : S + C - 1 = (S - 1) + C := by omega
    rw [h1, Nat.add_div_right _ hC, Nat.div_eq_of_lt (by omega)]

lemma flatten_chunkBytes {C : Nat} (hC : 0 < C) :
    ∀ (n : Nat) (l : List Nat), l.length ≤ n →
      ((List.range (numChunks l.length C)).map (chunkBytes l C)).flatten = l := by
  intro n
  induction n with
  | zero =>
    intro l hl
    have h0 : l = [] := by
      cases l with
      | nil => rfl
      | cons a as => simp at hl
    subst h0
    simp [numChunks_zero]
  | succ n ih =>
    intro l hl
    by_cases h0 : l = []
    · subst h0; simp [numChunks_zero]
    · have hS : 0 < l.length := List.length_pos.mpr h0
      rw [numChunks_succ hS hC, List.range_succ_eq_map, List.map_cons,
        List.flatten_cons, List.map_map]
      have h2 : List.map (chunkBytes l C ∘ Nat.succ) (List.range (numChunks (l.length - C) C)) =
          List.map (chunkBytes (l.drop C) C) (List.range (numChunks (l.length - C) C)) := by
        refine List.map_congr_left ?_
        intro i _
        simp only [Function.comp, chunkBytes, List.drop_drop]
        congr 2
        rw [Nat.succ_eq_add_one]
        ring
      have h3 : (l.drop C).length = l.length - C := List.length_drop C l
      have h4 := ih (l.drop C) (by omega)
      rw [h3] at h4
      rw [h2, h4]
      simp only [chunkBytes, Nat.zero_mul, List.drop_zero]
      exact List.take_append_drop C l

/-! ### The write loop of `compress_file` -/

lemma writeRecords_mkChunkData (comp : List Nat → List Nat) (fn bytes : List Nat)
    (C S N : Nat) :
    ∀ (n i0 : Nat),
      writeRecords fn S N i0 ((List.range' i0 n).map (mkChunkData comp bytes C)) =
        ((List.range' i0 n).map
          (fun i => recordBytesFor fn S N i (mkChunkData comp bytes C i)), none) := by
  intro n
  induction n with
  | zero => intro i0; rfl
  | succ n ih =>
    intro i0
    rw [List.range'_succ, List.map_cons, List.map_cons, writeRecords,
      if_pos (show (mkChunkData comp bytes C i0).processed = true from rfl)]
    show (recordBytesFor fn S N i0 (mkChunkData comp bytes C i0) ::
        (writeRecords fn S N (i0 + 1) ((List.range' (i0 + 1) n).map (mkChunkData comp bytes C))).1,
      (writeRecords fn S N (i0 + 1) ((List.range' (i0 + 1) n).map (mkChunkData comp bytes C))).2) = _
    rw [ih (i0 + 1)]

lemma compressFile_eq (comp : List Nat → List Nat) (fn bytes : List Nat) (C : Nat) :
    compressFile comp fn bytes C = .ok (compressRecords comp fn bytes C) := by
  unfold compressFile compressRecords recordsWithCrc
  simp only [List.range_eq_range']
  rw [writeRecords_mkChunkData comp fn bytes C]
  rfl

/-! ### The read loop of `decompress_file` -/

lemma readSlotsGo_map (comp : List Nat → List Nat) (fn bytes : List Nat)
    (C N : Nat) (crcf : Nat → Nat) (hfn : fn.length < 2 ^ 32) :
    ∀ (idxs : List Nat) (slots : List (List Nat)),
      (∀ j ∈ idxs, j < 2 ^ 32 ∧ (comp (chunkBytes bytes C j)).length < 2 ^ 64) →
      readSlotsGo (idxs.map (recordOf comp fn bytes C N crcf)) slots =
        .ok (idxs.foldl (fun s j => s.set j (comp (chunkBytes bytes C j))) slots) := by
  intro idxs
  induction idxs with
  | nil => intro slots _; rfl
  | cons j js ih =>
    intro slots hj
    obtain ⟨hj32, hj64⟩ := hj j (List.mem_cons_self _ _)
    have hparse : parseHeader (recordOf comp fn bytes C N crcf j).2 =
        some (mkMeta j N bytes.length (chunkBytes bytes C j).length
          (comp (chunkBytes bytes C j)).length fn.length (crcf j)) := by
      show parseHeader (serHeader _ ++ fn ++ comp (chunkBytes bytes C j)) = _
      rw [List.append_assoc]
      exact parseHeader_mkMeta _ _ _ _ _ _ _ _
    rw [List.map_cons]
    simp only [readSlotsGo, hparse]
    have hfield1 : (mkMeta j N bytes.length (chunkBytes bytes C j).length
        (comp (chunkBytes bytes C j)).length fn.length (crcf j)).chunk_index = j := by
      simp only [mkMeta]
      omega
    have hfield2 : (mkMeta j N bytes.length (chunkBytes bytes C j).length
        (comp (chunkBytes bytes C j)).length fn.length (crcf j)).filename_length =
        fn.length := by
      simp only [mkMeta]
      omega
    have hfield3 : (mkMeta j N bytes.length (chunkBytes bytes C j).length
        (comp (chunkBytes bytes C j)).length fn.length (crcf j)).compressed_size =
        (comp (chunkBytes bytes C j)).length := by
      simp only [mkMeta]
      omega
    rw [hfield1, hfield2, hfield3]
    have hdrop : ((recordOf comp fn bytes C N crcf j).2.drop (48 + fn.length)).take
        ((comp (chunkBytes bytes C j)).length) = comp (chunkBytes bytes C j) := by
      show ((serHeader _ ++ fn ++ comp (chunkBytes bytes C j)).drop (48 + fn.length)).take _ = _
      have hlen : (serHeader (mkMeta j N bytes.length (chunkBytes bytes C j).length
          (comp (chunkBytes bytes C j)).length fn.length (crcf j)) ++ fn).length =
          48 + fn.length := by
        rw [List.length_append, serHeader_mkMeta_length]
      rw [← hlen, List.drop_left, List.take_length]
    rw [hdrop, ih (slots.set j (comp (chunkBytes bytes C j)))
      (fun i hi => hj i (List.mem_cons_of_mem _ hi))]
    rfl

lemma foldl_set_range (g : Nat → List Nat) :
    ∀ (n : Nat) (s0 : List (List Nat)), n ≤ s0.length →
      (List.range n).foldl (fun s j => s.set j (g j)) s0 =
        (List.range n).map g ++ s0.drop n := by
  intro n
  induction n with
  | zero => intro s0 _; simp
  | succ n ih =>
    intro s0 hn
    rw [List.range_succ, List.foldl_append, ih s0 (by omega)]
    simp only [List.foldl_cons, List.foldl_nil]
    rw [List.set_append]
    have hlen : ((List.range n).map g).length = n := by simp
    rw [if_neg (by omega), hlen]
    have hd : (s0.drop n).set (n - n) (g n) = g n :: s0.drop (n + 1) := by
      rw [Nat.sub_self, List.drop_eq_getElem_cons (show n < s0.length by omega)]
      rfl
    rw [hd]
    simp [List.range_succ, List.append_assoc]

/-! ### The verification pool of `decompress_file` -/

lemma workerGo_ok (dec : List Nat → Nat → Option (List Nat))
    (files : List (List Nat × List Nat)) (slots : List (List Nat))
    (g : Nat → List Nat) :
    ∀ idxs : List Nat, (∀ i ∈ idxs, TaskOk dec files slots g i) →
      workerGo dec files slots idxs = .ok (idxs.map g) := by
  intro idxs
  induction idxs with
  | nil => intro _; rfl
  | cons i is ih =>
    intro h
    obtain ⟨f, m, hf, hm, hd, hc⟩ := h i (List.mem_cons_self _ _)
    rw [List.map_cons]
    simp only [workerGo, hf, hm, hd, hc, if_pos, ih (fun j hj => h j (List.mem_cons_of_mem _ hj))]

lemma workerGo_append_err (dec : List Nat → Nat → Option (List Nat))
    (files : List (List Nat × List Nat)) (slots : List (List Nat))
    (g : Nat → List Nat) (e : Err) :
    ∀ l₁ l₂ : List Nat, (∀ i ∈ l₁, TaskOk dec files slots g i) →
      workerGo dec files slots l₂ = .err e →
      workerGo dec files slots (l₁ ++ l₂) = .err e := by
  intro l₁
  induction l₁ with
  | nil => intro l₂ _ h2; exact h2
  | cons i is ih =>
    intro l₂ h h2
    obtain ⟨f, m, hf, hm, hd, hc⟩ := h i (List.mem_cons_self _ _)
    rw [List.cons_append]
    simp only [workerGo, hf, hm, hd, hc, if_pos,
      ih l₂ (fun j hj => h j (List.mem_cons_of_mem _ hj)) h2]

lemma workerGo_ok_isSome (dec : List Nat → Nat → Option (List Nat))
    (files : List (List Nat × List Nat)) (slots : List (List Nat)) :
    ∀ (idxs : List Nat) (v : List (List Nat)),
      workerGo dec files slots idxs = .ok v →
      ∀ i ∈ idxs, (taskFileAccess files i).isSome = true := by
  intro idxs
  induction idxs with
  | nil =>
    intro v _ i hi
    simp at hi
  | cons i is ih =>
    intro v hok j hj
    rw [workerGo] at hok
    cases hacc : taskFileAccess files i with
    | none =>
      simp only [hacc] at hok
      exact Res.noConfusion hok
    | some f =>
      simp only [hacc] at hok
      rcases List.mem_cons.mp hj with hji | hji
      · subst hji
        simp [hacc]
      · cases hp : parseHeader f.2 with
        | none =>
          simp only [hp] at hok
          exact Res.noConfusion hok
        | some m =>
          simp only [hp] at hok
          cases hd : dec (slots.getD i []) m.uncompressed_chunk_size with
          | none =>
            simp only [hd] at hok
            exact Res.noConfusion hok
          | some d =>
            simp only [hd] at hok
            by_cases hc : crc32 d = m.crc32_checksum
            · rw [if_pos hc] at hok
              cases hw : workerGo dec files slots is with
              | ok ds => exact ih ds hw j hji
              | err e =>
                simp only [hw] at hok
                exact Res.noConfusion hok
            · rw [if_neg hc] at hok
              exact Res.noConfusion hok

/-! ### End-to-end behaviour of `decompress_file` on produced chunk sets -/

lemma parseHeader_recordOf (comp : List Nat → List Nat) (fn bytes : List Nat)
    (C N : Nat) (crcf : Nat → Nat) (i : Nat) :
    parseHeader (recordOf comp fn bytes C N crcf i).2 =
      some (mkMeta i N bytes.length (chunkBytes bytes C i).length
        (comp (chunkBytes bytes C i)).length fn.length (crcf i)) := by
  show parseHeader (serHeader _ ++ fn ++ comp (chunkBytes bytes C i)) = _
  rw [List.append_assoc]
  exact parseHeader_mkMeta _ _ _ _ _ _ _ _

lemma taskFileAccess_map (f : Nat → (List Nat × List Nat)) (n i : Nat) (hi : i < n) :
    taskFileAccess ((List.range n).map f) i = some (f i) := by
  unfold taskFileAccess
  rw [List.getElem?_map, List.getElem?_range hi]
  rfl

lemma slots_getD (g : Nat → List Nat) (n i : Nat) (hi : i < n) :
    ((List.range n).map g).getD i [] = g i := by
  rw [List.getD_eq_getElem?_getD, List.getElem?_map, List.getElem?_range hi]
  rfl

lemma chunkBytes_length_le (bytes : List Nat) (C i : Nat) :
    (chunkBytes bytes C i).length ≤ bytes.length := by
  simp only [chunkBytes, List.length_take, List.length_drop]
  omega

lemma chunkBytes_mem_lt {bytes : List Nat} (hb : ∀ b ∈ bytes, b < 256) (C i : Nat) :
    ∀ b ∈ chunkBytes bytes C i, b < 256 :=
  fun b hbm => hb b (List.drop_subset _ _ (List.take_subset _ _ hbm))

/-- `decompress_file` once the sorted discovery list is known to be a cons. -/
lemma decompressFile_cons (dec : List Nat → Nat → Option (List Nat))
    (dir : List (List Nat × List Nat)) (f0 : List Nat × List Nat)
    (rest : List (List Nat × List Nat))
    (hs : sortFiles (dir.filter (fun e => isDchunk e.1)) = f0 :: rest) :
    decompressFile dec dir =
      match parseHeader f0.2 with
      | none => .err .formatError
      | some m0 =>
        if m0.magic = magicBytes then
          match readSlotsGo ((f0 :: rest).take m0.total_chunks)
              (List.replicate m0.total_chunks []) with
          | .err e => .err e
          | .ok slots =>
            match workerGo dec (f0 :: rest) slots (List.range m0.total_chunks) with
            | .err e => .err e
            | .ok datas => .ok datas.flatten
        else .err .formatError := by
  unfold decompressFile
  rw [hs]

/-- Reduction lemma: on any permutation of a full `N ≤ 9` chunk set,
`decompress_file` reaches the verification pool with the slots correctly
filled (placement is by `chunk_index`), and its outcome is the pool's. -/
lemma decompress_records_reduce
    (comp : List Nat → List Nat) (dec : List Nat → Nat → Option (List Nat))
    (fn bytes : List Nat) (C N : Nat) (crcf : Nat → Nat)
    (hN1 : 1 ≤ N) (hN9 : N ≤ 9)
    (hfn : fn.length < 2 ^ 32)
    (hcl : ∀ i, i < N → (comp (chunkBytes bytes C i)).length < 2 ^ 64)
    (d : List (List Nat × List Nat))
    (hperm : d.Perm (recordsWithCrc comp fn bytes C N crcf)) :
    decompressFile dec d =
      match workerGo dec ((List.range N).map (recordOf comp fn bytes C N crcf))
          ((List.range N).map (fun j => comp (chunkBytes bytes C j)))
          (List.range N) with
      | .err e => .err e
      | .ok datas => .ok datas.flatten := by
  have hall : ∀ r ∈ recordsWithCrc comp fn bytes C N crcf, isDchunk r.1 = true := by
    intro r hr
    obtain ⟨i, hi, hri⟩ := List.mem_map.mp hr
    rw [← hri]
    exact isDchunk_chunkFileName i N
  have hfd : (d.filter (fun e => isDchunk e.1)).Perm (recordsWithCrc comp fn bytes C N crcf) := by
    have h1 := hperm.filter (fun e => isDchunk e.1)
    rwa [List.filter_eq_self.mpr hall] at h1
  have hsort : sortFiles (d.filter (fun e => isDchunk e.1)) =
      recordsWithCrc comp fn bytes C N crcf :=
    sortFiles_eq_of_perm _ _ hfd (recordsWithCrc_pairwise comp fn bytes C N crcf hN9)
  obtain ⟨n, rfl⟩ : ∃ n, N = n + 1 := ⟨N - 1, by omega⟩
  have hrecs_cons : recordsWithCrc comp fn bytes C (n + 1) crcf =
      recordOf comp fn bytes C (n + 1) crcf 0 ::
        (List.range n).map (fun i => recordOf comp fn bytes C (n + 1) crcf (i + 1)) := by
    rw [recordsWithCrc, List.range_succ_eq_map, List.map_cons, List.map_map]
    rfl
  rw [decompressFile_cons dec d _ _ (hsort.trans hrecs_cons)]
  simp only [parseHeader_recordOf]
  have hmagic : (mkMeta 0 (n + 1) bytes.length (chunkBytes bytes C 0).length
      (comp (chunkBytes bytes C 0)).length fn.length (crcf 0)).magic = magicBytes := rfl
  rw [if_pos hmagic]
  have htot : (mkMeta 0 (n + 1) bytes.length (chunkBytes bytes C 0).length
      (comp (chunkBytes bytes C 0)).length fn.length (crcf 0)).total_chunks = n + 1 := by
    simp only [mkMeta]
    omega
  rw [htot]
  have htake : (recordOf comp fn bytes C (n + 1) crcf 0 ::
      (List.range n).map (fun i => recordOf comp fn bytes C (n + 1) crcf (i + 1))).take (n + 1) =
      recordOf comp fn bytes C (n + 1) crcf 0 ::
      (List.range n).map (fun i => recordOf comp fn bytes C (n + 1) crcf (i + 1)) :=
    List.take_of_length_le (by simp)
  rw [htake, ← hrecs_cons, recordsWithCrc]
  have hread := readSlotsGo_map comp fn bytes C (n + 1) crcf hfn (List.range (n + 1))
    (List.replicate (n + 1) [])
    (fun j hj => ⟨by have := List.mem_range.mp hj; omega,
      hcl j (List.mem_range.mp hj)⟩)
  rw [foldl_set_range (fun j => comp (chunkBytes bytes C j)) (n + 1)
    (List.replicate (n + 1) []) (by simp)] at hread
  simp only [List.drop_replicate, Nat.sub_self, List.replicate_zero, List.append_nil] at hread
  simp only [hread]

/-- The verification task for index `i` succeeds on a produced chunk set when
its stored CRC field is the checksum of the chunk's uncompressed bytes. -/
lemma taskOk_recordOf (comp : List Nat → List Nat) (dec : List Nat → Nat → Option (List Nat))
    (fn bytes : List Nat) (C N : Nat) (crcf : Nat → Nat)
    (hS : bytes.length < 2 ^ 64) (i : Nat) (hi : i < N)
    (hrti : dec (comp (chunkBytes bytes C i)) (chunkBytes bytes C i).length =
      some (chunkBytes bytes C i))
    (hcrci : crcf i % 2 ^ 32 = crc32 (chunkBytes bytes C i)) :
    TaskOk dec ((List.range N).map (recordOf comp fn bytes C N crcf))
      ((List.range N).map (fun j => comp (chunkBytes bytes C j)))
      (chunkBytes bytes C) i := by
  refine ⟨recordOf comp fn bytes C N crcf i,
    mkMeta i N bytes.length (chunkBytes bytes C i).length
      (comp (chunkBytes bytes C i)).length fn.length (crcf i),
    taskFileAccess_map _ _ _ hi, parseHeader_recordOf comp fn bytes C N crcf i,
    ?_, ?_⟩
  · rw [slots_getD _ _ _ hi]
    have hunc : (mkMeta i N bytes.length (chunkBytes bytes C i).length
        (comp (chunkBytes bytes C i)).length fn.length (crcf i)).uncompressed_chunk_size =
        (chunkBytes bytes C i).length := by
      simp only [mkMeta]
      have := chunkBytes_length_le bytes C i
      omega
    rw [hunc]
    exact hrti
  · simp only [mkMeta]
    exact hcrci.symm

/-- Master lemma: on any permutation of a full `N ≤ 9` chunk set whose CRC
header fields are the true chunk checksums, decompression returns the original
bytes. -/
lemma decompress_recordsWithCrc_ok
    (comp : List Nat → List Nat) (dec : List Nat → Nat → Option (List Nat))
    (fn bytes : List Nat) (C N : Nat) (crcf : Nat → Nat)
    (hN : N = numChunks bytes.length C)
    (hC : 0 < C) (hN1 : 1 ≤ N) (hN9 : N ≤ 9)
    (hb : ∀ b ∈ bytes, b < 256)
    (hfn : fn.length < 2 ^ 32)
    (hS : bytes.length < 2 ^ 64)
    (hcl : ∀ i, i < N → (comp (chunkBytes bytes C i)).length < 2 ^ 64)
    (hrt : ∀ i, i < N → dec (comp (chunkBytes bytes C i)) (chunkBytes bytes C i).length =
      some (chunkBytes bytes C i))
    (hcrc : ∀ i, i < N → crcf i = crc32 (chunkBytes bytes C i))
    (d : List (List Nat × List Nat))
    (hperm : d.Perm (recordsWithCrc comp fn bytes C N crcf)) :
    decompressFile dec d = .ok bytes := by
  rw [decompress_records_reduce comp dec fn bytes C N crcf hN1 hN9 hfn hcl d hperm]
  have hwork := workerGo_ok dec
    ((List.range N).map (recordOf comp fn bytes C N crcf))
    ((List.range N).map (fun j => comp (chunkBytes bytes C j)))
    (chunkBytes bytes C) (List.range N) ?_
  · simp only [hwork]
    have hflat := flatten_chunkBytes hC bytes.length bytes (le_refl _)
    rw [← hN] at hflat
    rw [hflat]
  · intro i hi
    have hilt : i < N := List.mem_range.mp hi
    refine taskOk_recordOf comp dec fn bytes C N crcf hS i hilt (hrt i hilt) ?_
    rw [hcrc i hilt, Nat.mod_eq_of_lt (crc32_lt (chunkBytes_mem_lt hb C i))]

/-- Tamper lemma: if exactly the CRC header field of chunk `j` disagrees with
the checksum of its uncompressed bytes, decompression fails with the integrity
error that names `j`. -/
lemma decompress_recordsWithCrc_tamper
    (comp : List Nat → List Nat) (dec : List Nat → Nat → Option (List Nat))
    (fn bytes : List Nat) (C N : Nat) (crcf : Nat → Nat) (j : Nat)
    (hN1 : 1 ≤ N) (hN9 : N ≤ 9)
    (hfn : fn.length < 2 ^ 32)
    (hS : bytes.length < 2 ^ 64)
    (hcl : ∀ i, i < N → (comp (chunkBytes bytes C i)).length < 2 ^ 64)
    (hrt : ∀ i, i < N → dec (comp (chunkBytes bytes C i)) (chunkBytes bytes C i).length =
      some (chunkBytes bytes C i))
    (hj : j < N)
    (hcrc : ∀ i, i < N → i ≠ j → crcf i % 2 ^ 32 = crc32 (chunkBytes bytes C i))
    (hbad : crcf j % 2 ^ 32 ≠ crc32 (chunkBytes bytes C j)) :
    decompressFile dec (recordsWithCrc comp fn bytes C N crcf) =
      .err (.integrityError j) := by
  rw [decompress_records_reduce comp dec fn bytes C N crcf hN1 hN9 hfn hcl _
    (List.Perm.refl _)]
  have hsplit : List.range N = List.range' 0 j ++ (j :: List.range' (j + 1) (N - j - 1)) := by
    have h1 := List.range'_append 0 j (N - j) 1
    simp only [Nat.zero_add, Nat.one_mul] at h1
    have h2 : List.range' j (N - j) = j :: List.range' (j + 1) (N - j - 1) := by
      conv_lhs => rw [show N - j = (N - j - 1) + 1 by omega]
      rw [List.range'_succ]
    calc List.range N = List.range' 0 N := List.range_eq_range' N
      _ = List.range' 0 (N - j + j) := by rw [show N - j + j = N by omega]
      _ = List.range' 0 j ++ List.range' j (N - j) := h1.symm
      _ = List.range' 0 j ++ (j :: List.range' (j + 1) (N - j - 1)) := by rw [h2]
  have herr : workerGo dec ((List.range N).map (recordOf comp fn bytes C N crcf))
      ((List.range N).map (fun i => comp (chunkBytes bytes C i)))
      (j :: List.range' (j + 1) (N - j - 1)) = .err (.integrityError j) := by
    have hf := taskFileAccess_map (recordOf comp fn bytes C N crcf) N j hj
    have hp := parseHeader_recordOf comp fn bytes C N crcf j
    have hslot : ((List.range N).map (fun i => comp (chunkBytes bytes C i))).getD j [] =
        comp (chunkBytes bytes C j) := slots_getD _ _ _ hj
    have hunc : (mkMeta j N bytes.length (chunkBytes bytes C j).length
        (comp (chunkBytes bytes C j)).length fn.length (crcf j)).uncompressed_chunk_size =
        (chunkBytes bytes C j).length := by
      simp only [mkMeta]
      have := chunkBytes_length_le bytes C j
      omega
    have hne : ¬ (crc32 (chunkBytes bytes C j) = (mkMeta j N bytes.length
        (chunkBytes bytes C j).length (comp (chunkBytes bytes C j)).length fn.length
        (crcf j)).crc32_checksum) := by
      simp only [mkMeta]
      exact fun h => hbad h.symm
    simp only [workerGo, hf, hp, hslot, hunc, hrt j hj, if_neg hne]
  have htasks : ∀ i ∈ List.range' 0 j, TaskOk dec
      ((List.range N).map (recordOf comp fn bytes C N crcf))
      ((List.range N).map (fun i => comp (chunkBytes bytes C i)))
      (chunkBytes bytes C) i := by
    intro i hi
    have hij : i < j := by
      have := List.mem_range'_1.mp hi
      omega
    exact taskOk_recordOf comp dec fn bytes C N crcf hS i (by omega)
      (hrt i (by omega)) (hcrc i (by omega) (by omega))
  have happ := workerGo_append_err dec
    ((List.range N).map (recordOf comp fn bytes C N crcf))
    ((List.range N).map (fun i => comp (chunkBytes bytes C i)))
    (chunkBytes bytes C) (.integrityError j)
    (List.range' 0 j) (j :: List.range' (j + 1) (N - j - 1)) htasks herr
  rw [← hsplit] at happ
  simp only [happ]

/-- If `decompress_file` succeeds, the bootstrapped `total_chunks` cannot
exceed the number of discovered files (each pool task indexes the sorted
list). -/
lemma decompressFile_ok_total_le
    (dec : List Nat → Nat → Option (List Nat)) (dir : List (List Nat × List Nat))
    (r : List Nat) (f0 : List Nat × List Nat) (rest : List (List Nat × List Nat))
    (m0 : ChunkMetadata)
    (hok : decompressFile dec dir = .ok r)
    (hs : sortFiles (dir.filter (fun e => isDchunk e.1)) = f0 :: rest)
    (hm0 : parseHeader f0.2 = some m0) :
    m0.total_chunks ≤ (f0 :: rest).length := by
  rw [decompressFile_cons dec dir f0 rest hs] at hok
  simp only [hm0] at hok
  by_cases hmagic : m0.magic = magicBytes
  · rw [if_pos hmagic] at hok
    cases hread : readSlotsGo ((f0 :: rest).take m0.total_chunks)
        (List.replicate m0.total_chunks []) with
    | err e =>
      simp only [hread] at hok
      exact Res.noConfusion hok
    | ok slots =>
      simp only [hread] at hok
      cases hwork : workerGo dec (f0 :: rest) slots (List.range m0.total_chunks) with
      | err e =>
        simp only [hwork] at hok
        exact Res.noConfusion hok
      | ok datas =>
        by_contra hgt
        have hmem : (f0 :: rest).length ∈ List.range m0.total_chunks :=
          List.mem_range.mpr (by omega)
        have hsome := workerGo_ok_isSome dec (f0 :: rest) slots _ datas hwork _ hmem
        rw [taskFileAccess, List.getElem?_eq_none (le_refl _)] at hsome
        exact Bool.noConfusion hsome
  · rw [if_neg hmagic] at hok
    exact Res.noConfusion hok

lemma compressRecords_getD (comp : List Nat → List Nat) (fn bytes : List Nat)
    (C i : Nat) (hi : i < numChunks bytes.length C) :
    (compressRecords comp fn bytes C).getD i ([], []) =
      recordOf comp fn bytes C (numChunks bytes.length C)
        (fun k => crc32 (chunkBytes bytes C k)) i := by
  unfold compressRecords recordsWithCrc
  rw [List.getD_eq_getElem?_getD, List.getElem?_map, List.getElem?_range hi]
  rfl

/-! ### Claim theorems -/

/-- C1 (amended): the compress-then-decompress round trip reproduces the
input byte-for-byte for any chunk size ≥ 1 and any chunk count between 1 and
9 (the range in which the lexical sort of the generated file names agrees
with chunk-index order), assuming the external codec meets its contract on
the produced chunks.  (The claim as stated — for any number of chunks ≥ 1 —
is refuted by the 10-chunk counterexample below; beyond 9 chunks the round
trip is no longer guaranteed, though particular inputs, such as files whose
chunks are all identical, can still succeed.) -/
theorem claim1_roundtrip_le9
    (comp : List Nat → List Nat) (dec : List Nat → Nat → Option (List Nat))
    (fn bytes : List Nat) (C : Nat)
    (hC : 0 < C)
    (hN1 : 1 ≤ numChunks bytes.length C) (hN9 : numChunks bytes.length C ≤ 9)
    (hb : ∀ b ∈ bytes, b < 256) (hfn : fn.length < 2 ^ 32)
    (hS : bytes.length < 2 ^ 64)
    (hcl : ∀ i, i < numChunks bytes.length C →
      (comp (chunkBytes bytes C i)).length < 2 ^ 64)
    (hrt : ∀ i, i < numChunks bytes.length C →
      dec (comp (chunkBytes bytes C i)) (chunkBytes bytes C i).length =
        some (chunkBytes bytes C i)) :
    roundTrip comp dec fn bytes C = .ok bytes := by
  unfold roundTrip
  rw [compressFile_eq]
  exact decompress_recordsWithCrc_ok comp dec fn bytes C (numChunks bytes.length C) _
    rfl hC hN1 hN9 hb hfn hS hcl hrt (fun _ _ => rfl) _ (List.Perm.refl _)

theorem claim1_roundtrip_le9_witness :
    roundTrip idComp idDec [97] [1, 2, 3] 1 = .ok [1, 2, 3] :=
  claim1_roundtrip_le9 idComp idDec [97] [1, 2, 3] 1 (by decide) (by decide)
    (by decide) (by decide) (by decide) (by decide) (by decide) (by decide)

/-- C1 counterexample: a 10-byte input at chunk size 1 (10 chunks, identity
codec) does not round-trip — decompression fails because the verification
task for slot `i` reads the header of the `i`-th lexically sorted file, and
with 10 chunks lexical order differs from index order. -/
theorem claim1_counterexample :
    roundTrip idComp idDec [97] [0, 1, 2, 3, 4, 5, 6, 7, 8, 9] 1 ≠
      .ok [0, 1, 2, 3, 4, 5, 6, 7, 8, 9] := by decide

/-- C2 (amended): placement of compressed payloads into slots uses each
record's own `chunk_index` header field, so decompression is insensitive to
the order in which the directory listing presents a chunk set — proven here
for chunk sets of at most 9 chunks, where the lexical sort agrees with index
order.  Beyond 9 chunks correct reassembly is no longer guaranteed, because
the verification step pairs slot `i` with the header of the `i`-th lexically
sorted file: the counterexample's complete 10-chunk set fails to decompress. -/
theorem claim2_order_independence_le9
    (comp : List Nat → List Nat) (dec : List Nat → Nat → Option (List Nat))
    (fn bytes : List Nat) (C : Nat) (d : List (List Nat × List Nat))
    (hC : 0 < C)
    (hN1 : 1 ≤ numChunks bytes.length C) (hN9 : numChunks bytes.length C ≤ 9)
    (hb : ∀ b ∈ bytes, b < 256) (hfn : fn.length < 2 ^ 32)
    (hS : bytes.length < 2 ^ 64)
    (hcl : ∀ i, i < numChunks bytes.length C →
      (comp (chunkBytes bytes C i)).length < 2 ^ 64)
    (hrt : ∀ i, i < numChunks bytes.length C →
      dec (comp (chunkBytes bytes C i)) (chunkBytes bytes C i).length =
        some (chunkBytes bytes C i))
    (hperm : d.Perm (compressRecords comp fn bytes C)) :
    decompressFile dec d = .ok bytes :=
  decompress_recordsWithCrc_ok comp dec fn bytes C (numChunks bytes.length C) _
    rfl hC hN1 hN9 hb hfn hS hcl hrt (fun _ _ => rfl) d hperm

theorem claim2_order_independence_le9_witness :
    decompressFile idDec ((compressRecords idComp [98] [4, 5] 1).reverse) = .ok [4, 5] :=
  claim2_order_independence_le9 idComp idDec [98] [4, 5] 1 _ (by decide) (by decide)
    (by decide) (by decide) (by decide) (by decide) (by decide) (by decide)
    (List.reverse_perm _)

/-- C2 counterexample: a complete, untampered 10-chunk set of pairwise
distinct one-byte chunks, presented in reverse order, is not reassembled;
decompression fails instead of reproducing the input. -/
theorem claim2_counterexample :
    decompressFile idDec ((compressRecords idComp [98] [0, 1, 2, 3, 4, 5, 6, 7, 8, 9] 1).reverse) ≠
      .ok [0, 1, 2, 3, 4, 5, 6, 7, 8, 9] := by decide

/-- C3 (amended): the `crc32_checksum` header field of every produced chunk
record is the CRC-32 of that chunk's *uncompressed* bytes — never the
compressed bytes — with no restriction on the chunk count.  During
decompression, the CRC-32 of slot `i`'s decompressed bytes is compared,
before the chunk is accepted, against the checksum stored in the header of
the `i`-th lexically sorted chunk file, and a mismatch is fatal and names
index `i`.  That header is the chunk's own record — so the error names the
offending record's chunk index — exactly when sorted order matches index
order, which holds for sets of 1 to 9 chunks: there, a chunk set whose
record `j` carries any other checksum value fails with the integrity error
naming `j`.  (For 10 or more chunks the pairing shifts: see the
counterexample, where the record with `chunk_index` 0 holds the wrong
checksum but the fatal error names index 1.) -/
theorem claim3_crc_checked
    (comp : List Nat → List Nat) (dec : List Nat → Nat → Option (List Nat))
    (fn bytes : List Nat) (C : Nat)
    (hb : ∀ b ∈ bytes, b < 256) :
    (∀ i, i < numChunks bytes.length C →
      (parseHeader ((compressRecords comp fn bytes C).getD i ([], [])).2).map
        (fun m => m.crc32_checksum) = some (crc32 (chunkBytes bytes C i)))
    ∧ (1 ≤ numChunks bytes.length C → numChunks bytes.length C ≤ 9 →
      fn.length < 2 ^ 32 → bytes.length < 2 ^ 64 →
      (∀ i, i < numChunks bytes.length C →
        (comp (chunkBytes bytes C i)).length < 2 ^ 64) →
      (∀ i, i < numChunks bytes.length C →
        dec (comp (chunkBytes bytes C i)) (chunkBytes bytes C i).length =
          some (chunkBytes bytes C i)) →
      ∀ j c, j < numChunks bytes.length C → c % 2 ^ 32 ≠ crc32 (chunkBytes bytes C j) →
      decompressFile dec (recordsWithCrc comp fn bytes C (numChunks bytes.length C)
        (fun i => if i = j then c else crc32 (chunkBytes bytes C i))) =
        .err (.integrityError j)) := by
  constructor
  · intro i hi
    rw [compressRecords_getD comp fn bytes C i hi, parseHeader_recordOf]
    have hmod : (mkMeta i (numChunks bytes.length C) bytes.length
        (chunkBytes bytes C i).length (comp (chunkBytes bytes C i)).length fn.length
        (crc32 (chunkBytes bytes C i))).crc32_checksum = crc32 (chunkBytes bytes C i) := by
      simp only [mkMeta]
      exact Nat.mod_eq_of_lt (crc32_lt (chunkBytes_mem_lt hb C i))
    rw [Option.map_some', hmod]
  · intro hN1 hN9 hfn hS hcl hrt j c hj hc
    refine decompress_recordsWithCrc_tamper comp dec fn bytes C
      (numChunks bytes.length C) _ j hN1 hN9 hfn hS hcl hrt hj ?_ ?_
    · intro i hi hij
      rw [if_neg hij]
      exact Nat.mod_eq_of_lt (crc32_lt (chunkBytes_mem_lt hb C i))
    · rw [if_pos rfl]
      exact hc

theorem claim3_crc_checked_witness :
    (parseHeader ((compressRecords idComp [97] [7, 8, 9] 1).getD 1 ([], [])).2).map
        (fun m => m.crc32_checksum) = some (crc32 (chunkBytes [7, 8, 9] 1 1))
    ∧ decompressFile idDec (recordsWithCrc idComp [97] [7, 8, 9] 1 3
        (fun i => if i = 1 then 123 else crc32 (chunkBytes [7, 8, 9] 1 i))) =
      .err (.integrityError 1) := by
  have h := claim3_crc_checked idComp idDec [97] [7, 8, 9] 1 (by decide)
  exact ⟨h.1 1 (by decide), h.2 (by decide) (by decide) (by decide) (by decide)
    (by decide) (by decide) 1 123 (by decide) (by decide)⟩

/-- C3 counterexample: in a complete set of 10 identical one-byte chunks,
only the record with `chunk_index = 0` carries a wrong checksum (7 instead of
its chunk's CRC-32); every other record, including the one the error names,
is correct — yet the fatal integrity error names chunk index 1, the slot
whose verification task happened to read the offending record's header, so
the mismatch does not name the offending record's chunk index and chunk 0 is
never compared against its own stored checksum. -/
theorem claim3_counterexample :
    decompressFile idDec (recordsWithCrc idComp [97] (List.replicate 10 0) 1 10
        (fun i => if i = 0 then 7 else crc32 (chunkBytes (List.replicate 10 0) 1 i))) =
      .err (.integrityError 1)
    ∧ 7 ≠ crc32 (chunkBytes (List.replicate 10 0) 1 0) := by
  decide

/-- C4 (confirmed): a file of size `S` compressed at chunk size `C` yields
exactly `ceil(S/C)` chunk records; the `uncompressed_chunk_size` fields read
back from the records sum to `S`; and chunk buffer `i` has size
`min(C, S - i*C)`. -/
theorem claim4_index_invariant
    (comp : List Nat → List Nat) (fn bytes : List Nat) (C : Nat)
    (hC : 0 < C) (hS : bytes.length < 2 ^ 64) :
    (compressRecords comp fn bytes C).length = (bytes.length + C - 1) / C
    ∧ ((compressRecords comp fn bytes C).map
        (fun r => ((parseHeader r.2).map (fun m => m.uncompressed_chunk_size)).getD 0)).sum
        = bytes.length
    ∧ ∀ i, i < numChunks bytes.length C →
        (chunkBytes bytes C i).length = min C (bytes.length - i * C) := by
  refine ⟨?_, ?_, ?_⟩
  · unfold compressRecords recordsWithCrc
    simp [numChunks]
  · unfold compressRecords recordsWithCrc
    rw [List.map_map]
    have hmap : (List.range (numChunks bytes.length C)).map
        ((fun r => ((parseHeader r.2).map (fun m => m.uncompressed_chunk_size)).getD 0) ∘
          recordOf comp fn bytes C (numChunks bytes.length C)
            (fun k => crc32 (chunkBytes bytes C k))) =
        (List.range (numChunks bytes.length C)).map
          (fun i => (chunkBytes bytes C i).length) := by
      refine List.map_congr_left ?_
      intro i _
      simp only [Function.comp_apply, parseHeader_recordOf, Option.map_some',
        Option.getD_some, mkMeta]
      have := chunkBytes_length_le bytes C i
      omega
    rw [hmap]
    have hflat := flatten_chunkBytes hC bytes.length bytes (le_refl _)
    have hlen := congrArg List.length hflat
    rw [List.length_flatten, List.map_map] at hlen
    exact hlen
  · intro i _
    simp only [chunkBytes, List.length_take, List.length_drop]

theorem claim4_index_invariant_witness :
    (compressRecords idComp [97] [7, 8, 9] 2).length = (3 + 2 - 1) / 2
    ∧ ((compressRecords idComp [97] [7, 8, 9] 2).map
        (fun r => ((parseHeader r.2).map (fun m => m.uncompressed_chunk_size)).getD 0)).sum = 3
    ∧ ∀ i, i < numChunks 3 2 →
        (chunkBytes [7, 8, 9] 2 i).length = min 2 (3 - i * 2) :=
  claim4_index_invariant idComp [97] [7, 8, 9] 2 (by decide) (by decide)

/-- C5 (confirmed): removing at least one record from a produced chunk set
makes `decompress_file` fail (no-chunks error if nothing is left, otherwise a
failure in or before the verification pool, whose task for index `i` reads
the `i`-th discovered file and indexes past the end of the shortened list);
it never returns a truncated byte sequence. -/
theorem claim5_incomplete_fails
    (comp : List Nat → List Nat) (dec : List Nat → Nat → Option (List Nat))
    (fn bytes : List Nat) (C : Nat)
    (hN32 : numChunks bytes.length C < 2 ^ 32)
    (sub : List (List Nat × List Nat))
    (hsub : sub.Sublist (compressRecords comp fn bytes C))
    (hne : sub ≠ compressRecords comp fn bytes C) :
    ∃ e, decompressFile dec sub = .err e := by
  have hlen : sub.length < (compressRecords comp fn bytes C).length :=
    lt_of_le_of_ne hsub.length_le (fun h => hne (hsub.eq_of_length h))
  have hreclen : (compressRecords comp fn bytes C).length = numChunks bytes.length C := by
    unfold compressRecords recordsWithCrc
    simp
  cases hres : decompressFile dec sub with
  | err e => exact ⟨e, rfl⟩
  | ok r =>
    exfalso
    have hallsub : ∀ x ∈ sub, isDchunk x.1 = true := by
      intro x hx
      have hxr := hsub.subset hx
      simp only [compressRecords, recordsWithCrc] at hxr
      obtain ⟨i, hi, hri⟩ := List.mem_map.mp hxr
      rw [← hri]
      exact isDchunk_chunkFileName _ _
    have hfilter : sub.filter (fun e => isDchunk e.1) = sub :=
      List.filter_eq_self.mpr hallsub
    cases hsort : sortFiles (sub.filter (fun e => isDchunk e.1)) with
    | nil =>
      unfold decompressFile at hres
      rw [hsort] at hres
      exact Res.noConfusion hres
    | cons f0 rest =>
      have hf0 : f0 ∈ sub := by
        have h1 : f0 ∈ sortFiles (sub.filter (fun e => isDchunk e.1)) := by
          rw [hsort]
          exact List.mem_cons_self _ _
        have h2 := (sortFiles_perm _).mem_iff.mp h1
        rwa [hfilter] at h2
      have hf0r := hsub.subset hf0
      simp only [compressRecords, recordsWithCrc] at hf0r
      obtain ⟨i0, hi0, hri0⟩ := List.mem_map.mp hf0r
      have hm0 : parseHeader f0.2 = some (mkMeta i0 (numChunks bytes.length C)
          bytes.length (chunkBytes bytes C i0).length
          (comp (chunkBytes bytes C i0)).length fn.length
          (crc32 (chunkBytes bytes C i0))) := by
        rw [← hri0]
        exact parseHeader_recordOf _ _ _ _ _ _ _
      have hle := decompressFile_ok_total_le dec sub r f0 rest _ hres hsort hm0
      have htot : (mkMeta i0 (numChunks bytes.length C) bytes.length
          (chunkBytes bytes C i0).length (comp (chunkBytes bytes C i0)).length
          fn.length (crc32 (chunkBytes bytes C i0))).total_chunks =
          numChunks bytes.length C := by
        simp only [mkMeta]
        omega
      rw [htot] at hle
      have hslen : (f0 :: rest).length = sub.length := by
        have h3 := (sortFiles_perm (sub.filter (fun e => isDchunk e.1))).length_eq
        rw [hsort, hfilter] at h3
        exact h3
      rw [hslen] at hle
      omega

theorem claim5_incomplete_fails_witness :
    ∃ e, decompressFile idDec ((compressRecords idComp [97] [1, 2] 1).take 1) = .err e :=
  claim5_incomplete_fails idComp idDec [97] [1, 2] 1 (by decide) _
    (List.take_sublist 1 _) (by decide)

lemma writeRecords_first_unset (fn : List Nat) (S N : Nat) :
    ∀ (j : Nat) (cds : List ChunkData) (i0 : Nat), j < cds.length →
      (∀ k, k < j → (cds.getD k default).processed = true) →
      (cds.getD j default).processed = false →
      writeRecords fn S N i0 cds =
        ((List.range j).map (fun k => recordBytesFor fn S N (i0 + k) (cds.getD k default)),
         some .chunkProcessingError) := by
  intro j
  induction j with
  | zero =>
    intro cds i0 hj hbefore hunset
    cases cds with
    | nil => simp at hj
    | cons c rest =>
      have hc : c.processed = false := hunset
      rw [writeRecords, if_neg (by simp [hc])]
      simp
  | succ j ih =>
    intro cds i0 hj hbefore hunset
    cases cds with
    | nil => simp at hj
    | cons c rest =>
      have hc : c.processed = true := hbefore 0 (Nat.succ_pos j)
      rw [writeRecords, if_pos hc]
      show (recordBytesFor fn S N i0 c :: (writeRecords fn S N (i0 + 1) rest).1,
            (writeRecords fn S N (i0 + 1) rest).2) = _
      have hsub : (rest.getD j default).processed = false := hunset
      rw [ih rest (i0 + 1) (by simpa using hj)
        (fun k hk => hbefore (k + 1) (by omega)) hsub]
      rw [Prod.mk.injEq]
      refine ⟨?_, rfl⟩
      rw [List.range_succ_eq_map, List.map_cons, List.map_map]
      congr 1
      refine List.map_congr_left ?_
      intro k _
      have he : i0 + 1 + k = i0 + (k + 1) := by omega
      simp only [Function.comp_apply, List.getD_cons_succ]
      rw [he]

/-- C6 (amended): after the pool is drained, the write loop fails with
`ChunkProcessingError` at the *first* chunk whose completion flag is unset —
but the records of all lower-indexed (processed) chunks have already been
written at that point.  (The claim's "before any chunk record is written" is
false: see the counterexample, where a record is written before the error.) -/
theorem claim6_flag_check_interleaved (fn : List Nat) (S N : Nat)
    (cds : List ChunkData) (j : Nat)
    (hj : j < cds.length)
    (hbefore : ∀ k, k < j → (cds.getD k default).processed = true)
    (hunset : (cds.getD j default).processed = false) :
    writeRecords fn S N 0 cds =
      ((List.range j).map (fun k => recordBytesFor fn S N k (cds.getD k default)),
       some .chunkProcessingError) := by
  have h := writeRecords_first_unset fn S N j cds 0 hj hbefore hunset
  simpa using h

theorem claim6_flag_check_interleaved_witness :
    writeRecords [97] 2 2 0 [⟨0, [1], [1], true⟩, ⟨1, [2], [2], false⟩] =
      ((List.range 1).map (fun k =>
        recordBytesFor [97] 2 2 k
          (([⟨0, [1], [1], true⟩, ⟨1, [2], [2], false⟩] : List ChunkData).getD k default)),
       some .chunkProcessingError) :=
  claim6_flag_check_interleaved [97] 2 2
    [⟨0, [1], [1], true⟩, ⟨1, [2], [2], false⟩] 1 (by decide) (by decide) (by decide)

/-- C6 counterexample: with chunk 0 processed and chunk 1 unprocessed, the
write phase does throw `ChunkProcessingError` — but chunk 0's record has
already been written, contradicting "before any chunk record is written". -/
theorem claim6_counterexample :
    (writeRecords [97] 2 2 0 [⟨0, [1], [1], true⟩, ⟨1, [2], [2], false⟩]).2 =
      some .chunkProcessingError
    ∧ (writeRecords [97] 2 2 0 [⟨0, [1], [1], true⟩, ⟨1, [2], [2], false⟩]).1 ≠ [] := by
  decide

/-- C7 (amended): the magic tag is validated only for the lexically first
discovered chunk file: if that file's parsed magic differs from `"DCHUNKV1"`,
decompression fails with `FormatError`.  Headers of the other chunk files are
read and used without any magic validation (see the counterexample, where a
non-first record with corrupted magic decompresses successfully). -/
theorem claim7_magic_checked_on_first_only
    (dec : List Nat → Nat → Option (List Nat)) (dir : List (List Nat × List Nat))
    (f0 : List Nat × List Nat) (rest : List (List Nat × List Nat)) (m0 : ChunkMetadata)
    (hs : sortFiles (dir.filter (fun e => isDchunk e.1)) = f0 :: rest)
    (hp : parseHeader f0.2 = some m0) (hm : m0.magic ≠ magicBytes) :
    decompressFile dec dir = .err .formatError := by
  rw [decompressFile_cons dec dir f0 rest hs]
  simp only [hp]
  rw [if_neg hm]

theorem claim7_magic_checked_on_first_only_witness :
    decompressFile idDec [([120, 46, 100, 99, 104, 117, 110, 107], List.replicate 48 0)] =
      .err .formatError :=
  claim7_magic_checked_on_first_only idDec _
    ([120, 46, 100, 99, 104, 117, 110, 107], List.replicate 48 0) []
    ⟨[0, 0, 0, 0, 0, 0, 0, 0], 0, 0, 0, 0, 0, 0, 0⟩ (by decide) (by decide) (by decide)

/-- C7 counterexample: a two-chunk set whose second (non-first) record has its
first magic byte corrupted (88 ≠ 68, so its first 8 bytes are not
`"DCHUNKV1"`): its header is read during decompression without any
`FormatError`, and the whole run even succeeds. -/
theorem claim7_counterexample :
    (chunkFileName 1 2,
        88 :: ((compressRecords idComp [102] [5, 6] 1).getD 1 ([], [])).2.drop 1).2.take 8 ≠
      magicBytes
    ∧ decompressFile idDec
        [(compressRecords idComp [102] [5, 6] 1).getD 0 ([], []),
         (chunkFileName 1 2,
          88 :: ((compressRecords idComp [102] [5, 6] 1).getD 1 ([], [])).2.drop 1)] =
      .ok [5, 6] := by
  decide

/-- C8 (confirmed): the record written for chunk `i` is named
`chunk_{i+1}_of_{total}.dchunk` (relative to the output directory) and its
bytes are exactly the 48-byte packed header, then the raw filename bytes,
then the compressed payload, in that order with no delimiters; the header
fields hold the values `compress_file` computes (with the source's
integer-width truncations). -/
theorem claim8_record_layout
    (comp : List Nat → List Nat) (fn bytes : List Nat) (C : Nat)
    (hS : bytes.length < 2 ^ 64) (hfn : fn.length < 2 ^ 32)
    (i : Nat) (hi : i < numChunks bytes.length C) :
    ∃ m : ChunkMetadata,
      (compressRecords comp fn bytes C).getD i ([], []) =
        (chunkFileName i (numChunks bytes.length C),
         serHeader m ++ fn ++ comp (chunkBytes bytes C i))
      ∧ (serHeader m).length = 48
      ∧ m.magic = magicBytes
      ∧ m.chunk_index = i % 2 ^ 32
      ∧ m.total_chunks = numChunks bytes.length C % 2 ^ 32
      ∧ m.original_file_size = bytes.length
      ∧ m.uncompressed_chunk_size = (chunkBytes bytes C i).length
      ∧ m.compressed_size = (comp (chunkBytes bytes C i)).length % 2 ^ 64
      ∧ m.filename_length = fn.length
      ∧ m.crc32_checksum = crc32 (chunkBytes bytes C i) % 2 ^ 32 := by
  refine ⟨mkMeta i (numChunks bytes.length C) bytes.length (chunkBytes bytes C i).length
    (comp (chunkBytes bytes C i)).length fn.length (crc32 (chunkBytes bytes C i)),
    compressRecords_getD comp fn bytes C i hi, serHeader_mkMeta_length _ _ _ _ _ _ _,
    rfl, rfl, rfl, ?_, ?_, rfl, ?_, rfl⟩
  · simp only [mkMeta]
    omega
  · simp only [mkMeta]
    have := chunkBytes_length_le bytes C i
    omega
  · simp only [mkMeta]
    omega

theorem claim8_record_layout_witness :
    ∃ m : ChunkMetadata,
      (compressRecords idComp [97] [1, 2, 3] 2).getD 0 ([], []) =
        (chunkFileName 0 (numChunks 3 2),
         serHeader m ++ [97] ++ idComp (chunkBytes [1, 2, 3] 2 0))
      ∧ (serHeader m).length = 48
      ∧ m.magic = magicBytes
      ∧ m.chunk_index = 0 % 2 ^ 32
      ∧ m.total_chunks = numChunks 3 2 % 2 ^ 32
      ∧ m.original_file_size = 3
      ∧ m.uncompressed_chunk_size = (chunkBytes [1, 2, 3] 2 0).length
      ∧ m.compressed_size = (idComp (chunkBytes [1, 2, 3] 2 0)).length % 2 ^ 64
      ∧ m.filename_length = 1
      ∧ m.crc32_checksum = crc32 (chunkBytes [1, 2, 3] 2 0) % 2 ^ 32 :=
  claim8_record_layout idComp [97] [1, 2, 3] 2 (by decide) (by decide) 0 (by decide)

/-- C9 (confirmed): each dispatched decompression task for index
`i < total_chunks` reads `chunk_files[i]`; if the directory yields at least
`total_chunks` discovered files every such access is in bounds, and otherwise
some task (e.g. the one for index `#files`) indexes past the end of the
discovery list. -/
theorem claim9_task_access_bounds (files : List (List Nat × List Nat)) (total : Nat) :
    (total ≤ files.length → ∀ i, i < total → (taskFileAccess files i).isSome = true)
    ∧ (files.length < total → ∃ i, i < total ∧ taskFileAccess files i = none) := by
  constructor
  · intro hle i hi
    unfold taskFileAccess
    rw [List.getElem?_eq_getElem (by omega)]
    rfl
  · intro hlt
    refine ⟨files.length, hlt, ?_⟩
    unfold taskFileAccess
    exact List.getElem?_eq_none (le_refl _)

theorem claim9_task_access_bounds_witness :
    (taskFileAccess [([1], [2])] 0).isSome = true
    ∧ ∃ i, i < 1 ∧ taskFileAccess ([] : List (List Nat × List Nat)) i = none :=
  ⟨(claim9_task_access_bounds [([1], [2])] 1).1 (by decide) 0 (by decide),
   (claim9_task_access_bounds [] 1).2 (by decide)⟩

/-- C10 (confirmed): for an existing empty input file, `compress_file`
computes `total_chunks = 0`, writes no chunk records, and returns
successfully; a subsequent `decompress_file` on the (empty) output directory
fails with the no-chunks-found error instead of reproducing the empty file. -/
theorem claim10_empty_file (comp : List Nat → List Nat)
    (dec : List Nat → Nat → Option (List Nat)) (fn : List Nat) (C : Nat) :
    numChunks 0 C = 0
    ∧ compressFile comp fn [] C = .ok []
    ∧ decompressFile dec [] = .err .noChunksFound := by
  refine ⟨numChunks_zero C, ?_, rfl⟩
  rw [compressFile_eq]
  unfold compressRecords recordsWithCrc
  rw [List.length_nil, numChunks_zero]
  rfl

end DiscordCompressor

